import Mathlib

/-!
Verification of the surface-hopping energy/force layer of the libra-code
repository against its specification.

We give a shallow embedding of:
  * `src/dyn/Energy_and_Forces.cpp` (`compute_potential_energy`,
    `compute_forces`, mean-field and single-surface modes), and
  * `src/hamiltonian/Hamiltonian_Atomistic/Hamiltonian_Atomistic.cpp`
    (`set_q`, `set_v`, `set_Hamiltonian_type`, `compute_diabatic`,
    `compute_adiabatic` with their dirty-flag caches).

C++ doubles are modelled as exact rationals (ℚ); complex entries as pairs
of rationals.  Fixed-size arrays are functions out of `Fin n`.  A call to
`exit(0)` in the C++ code is modelled as returning `none`.
-/

/-- A complex number with rational parts, standing for `std::complex<double>`. -/
structure CplxQ where
  re : ℚ
  im : ℚ
deriving DecidableEq

/-- The `Nuclear` object of libdyn: coordinates, momenta, masses and forces
for `nnucl` nuclear degrees of freedom. -/
structure Nuclear (nnucl : ℕ) where
  q : Fin nnucl → ℚ
  p : Fin nnucl → ℚ
  mass : Fin nnucl → ℚ
  f : Fin nnucl → ℚ

/-- The `Electronic` object of libdyn: mapped electronic coordinates `q`,
momenta `p` (real and imaginary parts of the amplitudes), and the active
state index `istate`.  Validity of `istate` is enforced by the type. -/
structure Electronic (nstates : ℕ) where
  istate : Fin nstates
  q : Fin nstates → ℚ
  p : Fin nstates → ℚ

/-- The part of the abstract `Hamiltonian` base-class interface that
`Energy_and_Forces.cpp` reads after `set_q`/`compute` has refreshed the
caches: the vibronic matrix `Hvib`, the adiabatic matrix and its nuclear
gradients.  The base class itself is not among the sources. -/
structure HamIface (nstates nnucl : ℕ) where
  Hvib : Fin nstates → Fin nstates → CplxQ
  ham_adi : Fin nstates → Fin nstates → CplxQ
  d1ham_adi : Fin nnucl → Fin nstates → Fin nstates → CplxQ

/-- Modelled from the spec: the base-class accessor `Hamiltonian::H(i,j)` is
not under the given sources; §4.2 of the spec (single-surface mode reads
`H_adi[istate][istate]`) identifies it with the adiabatic matrix element. -/
def HamIface.H {nstates nnucl : ℕ} (ham : HamIface nstates nnucl)
    (i j : Fin nstates) : CplxQ :=
  ham.ham_adi i j

/-- Modelled from the spec: the base-class accessor `Hamiltonian::dHdq(i,j,k)`
is not under the given sources; §4.2 of the spec (single-surface force reads
`dH_adi[istate][istate][k]`) identifies it with the adiabatic gradient. -/
def HamIface.dHdq {nstates nnucl : ℕ} (ham : HamIface nstates nnucl)
    (i j : Fin nstates) (k : Fin nnucl) : CplxQ :=
  ham.d1ham_adi k i j

/-- `compute_potential_energy` from `Energy_and_Forces.cpp` lines 20-57.
`opt = 0` is mean-field/Ehrenfest; `opt = 1` is FSSH.  The accumulation of
`Heff` mirrors the two `+=` statements of the double loop; the leading calls
`ham->set_q(mol->q); ham->compute();` only refresh the caches behind the
accessors, which the `HamIface` fields already represent. -/
def compute_potential_energy {nstates nnucl : ℕ} (mol : Nuclear nnucl)
    (el : Electronic nstates) (ham : HamIface nstates nnucl) (opt : ℤ) : ℚ :=
  if opt = 0 then
    2 * ((List.finRange nstates).foldl (fun acc i =>
          (List.finRange nstates).foldl (fun acc2 j =>
            (acc2 + 0.5 * (ham.Hvib i j).re * (el.q i * el.q j + el.p i * el.p j))
              + (ham.Hvib i j).im * (el.p i * el.q j)) acc) 0)
  else if opt = 1 then
    (ham.H el.istate el.istate).re
  else 0

/-- Folding `acc + u x + v x` over a list accumulates the sum of `u + v`. -/
theorem foldl_add_add_eq {α : Type} (u v : α → ℚ) :
    ∀ (l : List α) (init : ℚ),
      l.foldl (fun acc x => (acc + u x) + v x) init
        = init + (l.map (fun x => u x + v x)).sum := by
  intro l
  induction l with
  | nil => intro init; simp
  | cons x xs ih =>
      intro init
      simp only [List.foldl_cons, List.map_cons, List.sum_cons]
      rw [ih]
      ring

/-- Folding `acc + w x` over a list accumulates the sum of `w`. -/
theorem foldl_add_eq {α : Type} (w : α → ℚ) :
    ∀ (l : List α) (init : ℚ),
      l.foldl (fun acc x => acc + w x) init = init + (l.map w).sum := by
  intro l
  induction l with
  | nil => intro init; simp
  | cons x xs ih =>
      intro init
      simp only [List.foldl_cons, List.map_cons, List.sum_cons]
      rw [ih]
      ring

/-- Claim C2: in mean-field (Ehrenfest) mode, `compute_potential_energy`
returns exactly `2 * Σ_{i,j} [0.5*Re(Hvib(i,j))*(q_i q_j + p_i p_j)
+ Im(Hvib(i,j))*p_i q_j]`, the sum over all pairs of electronic states, for
every input with matching dimensions. -/
theorem compute_potential_energy_MF {nstates nnucl : ℕ} (mol : Nuclear nnucl)
    (el : Electronic nstates) (ham : HamIface nstates nnucl) :
    compute_potential_energy mol el ham 0
      = 2 * ∑ i : Fin nstates, ∑ j : Fin nstates,
          (0.5 * (ham.Hvib i j).re * (el.q i * el.q j + el.p i * el.p j)
            + (ham.Hvib i j).im * (el.p i * el.q j)) := by
  unfold compute_potential_energy
  rw [if_pos rfl]
  congr 1
  have hinner : ∀ (i : Fin nstates) (acc : ℚ),
      (List.finRange nstates).foldl (fun acc2 j =>
        (acc2 + 0.5 * (ham.Hvib i j).re * (el.q i * el.q j + el.p i * el.p j))
          + (ham.Hvib i j).im * (el.p i * el.q j)) acc
        = acc + ((List.finRange nstates).map (fun j =>
            0.5 * (ham.Hvib i j).re * (el.q i * el.q j + el.p i * el.p j)
              + (ham.Hvib i j).im * (el.p i * el.q j))).sum := by
    intro i acc
    exact foldl_add_add_eq _ _ _ acc
  calc (List.finRange nstates).foldl (fun acc i =>
          (List.finRange nstates).foldl (fun acc2 j =>
            (acc2 + 0.5 * (ham.Hvib i j).re * (el.q i * el.q j + el.p i * el.p j))
              + (ham.Hvib i j).im * (el.p i * el.q j)) acc) 0
      = (List.finRange nstates).foldl (fun acc i =>
          acc + ((List.finRange nstates).map (fun j =>
            0.5 * (ham.Hvib i j).re * (el.q i * el.q j + el.p i * el.p j)
              + (ham.Hvib i j).im * (el.p i * el.q j))).sum) 0 := by
        congr 1
        funext acc i
        exact hinner i acc
    _ = 0 + ((List.finRange nstates).map (fun i =>
          ((List.finRange nstates).map (fun j =>
            0.5 * (ham.Hvib i j).re * (el.q i * el.q j + el.p i * el.p j)
              + (ham.Hvib i j).im * (el.p i * el.q j))).sum)).sum := by
        exact foldl_add_eq _ _ 0
    _ = ∑ i : Fin nstates, ∑ j : Fin nstates,
          (0.5 * (ham.Hvib i j).re * (el.q i * el.q j + el.p i * el.p j)
            + (ham.Hvib i j).im * (el.p i * el.q j)) := by
        simp [Fin.sum_univ_def]

/-- Net effect of the force-zeroing loop of `compute_forces` (lines 76-77):
`for(i=0;i<mol->nnucl;i++){ mol->f[k] = 0.0; }`.  The loop index is `i` but
the written slot is `k`, which is uninitialized at this point; its arbitrary
value is the parameter `k0`.  Every iteration writes the same slot, so the
net effect is a single write at `k0` when it is in bounds (an out-of-bounds
`k0` is modelled as leaving the array unchanged; when `nnucl = 0` the loop
body never runs). -/
def zero_forces_loop {nnucl : ℕ} (f : Fin nnucl → ℚ) (k0 : ℕ) : Fin nnucl → ℚ :=
  if h : k0 < nnucl then Function.update f ⟨k0, h⟩ 0 else f

/-- The mean-field accumulation loop of `compute_forces` (lines 86-100):
for every state pair `(i,j)` and every nuclear dof `k`, two `-=` updates of
`f[k]`. -/
def forces_MF_loop {nstates nnucl : ℕ} (el : Electronic nstates)
    (ham : HamIface nstates nnucl) (f0 : Fin nnucl → ℚ) : Fin nnucl → ℚ :=
  (List.finRange nstates).foldl (fun fi i =>
    (List.finRange nstates).foldl (fun fj j =>
      let cij_re := el.q i * el.q j + el.p i * el.p j
      let cij_im := el.p i * el.q j
      (List.finRange nnucl).foldl (fun fk k =>
        let fk1 := Function.update fk k (fk k - 2 * 0.5 * (ham.dHdq i j k).re * cij_re)
        Function.update fk1 k (fk1 k - 2 * (ham.dHdq i j k).im * cij_im)) fj) fi) f0

/-- `compute_forces` from `Energy_and_Forces.cpp` lines 66-114.  `opt = 0`
is mean-field/Ehrenfest; `opt = 1` is FSSH (which assigns every `f[k]`
directly).  `k0` is the arbitrary value of the uninitialized loop variable
`k` read by the zeroing loop. -/
def compute_forces {nstates nnucl : ℕ} (mol : Nuclear nnucl) (el : Electronic nstates)
    (ham : HamIface nstates nnucl) (opt : ℤ) (k0 : ℕ) : Fin nnucl → ℚ :=
  let fz := zero_forces_loop mol.f k0
  if opt = 0 then
    forces_MF_loop el ham fz
  else if opt = 1 then
    (List.finRange nnucl).foldl (fun f k =>
      Function.update f k (-(ham.dHdq el.istate el.istate k).re)) fz
  else fz

/-- Folding updates whose written value does not depend on the current array
rewrites exactly the visited indices. -/
theorem foldl_update_const {n : ℕ} (g : Fin n → ℚ) :
    ∀ (l : List (Fin n)) (f0 : Fin n → ℚ) (k : Fin n),
      (l.foldl (fun f j => Function.update f j (g j)) f0) k
        = if k ∈ l then g k else f0 k := by
  intro l
  induction l with
  | nil => intro f0 k; simp
  | cons x xs ih =>
      intro f0 k
      simp only [List.foldl_cons]
      rw [ih]
      by_cases hx : k ∈ xs
      · simp [hx]
      · by_cases hk : k = x
        · subst hk
          simp [hx, Function.update_same]
        · simp [hx, hk, Function.update_noteq hk]

/-- Folding the two-subtraction update of the mean-field inner loop over a
duplicate-free index list subtracts both contributions at each visited index. -/
theorem foldl_update_sub2 {n : ℕ} (A B : Fin n → ℚ) :
    ∀ (l : List (Fin n)), l.Nodup → ∀ (f0 : Fin n → ℚ) (k : Fin n),
      (l.foldl (fun f j =>
          let f1 := Function.update f j (f j - A j)
          Function.update f1 j (f1 j - B j)) f0) k
        = if k ∈ l then f0 k - A k - B k else f0 k := by
  intro l
  induction l with
  | nil => intro _ f0 k; simp
  | cons x xs ih =>
      intro hnd f0 k
      rw [List.nodup_cons] at hnd
      simp only [List.foldl_cons]
      rw [ih hnd.2]
      have hstep : Function.update (Function.update f0 x (f0 x - A x)) x
          (Function.update f0 x (f0 x - A x) x - B x)
            = Function.update f0 x (f0 x - A x - B x) := by
        rw [Function.update_same, Function.update_idem]
      rw [hstep]
      by_cases hx : k ∈ xs
      · have hkx : k ≠ x := fun h => hnd.1 (h ▸ hx)
        simp [hx, Function.update_noteq hkx]
      · by_cases hk : k = x
        · subst hk
          simp [hx, Function.update_same]
        · simp [hx, hk, Function.update_noteq hk]

/-- Folding pointwise subtractions accumulates the sum of the subtrahends. -/
theorem foldl_pointwise_sub {α : Type} {n : ℕ} (T : α → Fin n → ℚ) :
    ∀ (l : List α) (f0 : Fin n → ℚ),
      l.foldl (fun f x => fun k => f k - T x k) f0
        = fun k => f0 k - (l.map (fun x => T x k)).sum := by
  intro l
  induction l with
  | nil => intro f0; funext k; simp
  | cons x xs ih =>
      intro f0
      simp only [List.foldl_cons, List.map_cons, List.sum_cons]
      rw [ih]
      funext k
      ring

/-- Pointwise value of the mean-field force accumulation: each force slot
loses the sum over all state pairs of its two contributions. -/
theorem forces_MF_loop_eq {nstates nnucl : ℕ} (el : Electronic nstates)
    (ham : HamIface nstates nnucl) (f0 : Fin nnucl → ℚ) :
    forces_MF_loop el ham f0 = fun k => f0 k -
      ∑ i : Fin nstates, ∑ j : Fin nstates,
        (2 * 0.5 * (ham.dHdq i j k).re * (el.q i * el.q j + el.p i * el.p j)
          + 2 * (ham.dHdq i j k).im * (el.p i * el.q j)) := by
  unfold forces_MF_loop
  have hinner : ∀ (i j : Fin nstates) (fj : Fin nnucl → ℚ),
      (List.finRange nnucl).foldl (fun fk k =>
          let fk1 := Function.update fk k
            (fk k - 2 * 0.5 * (ham.dHdq i j k).re * (el.q i * el.q j + el.p i * el.p j))
          Function.update fk1 k
            (fk1 k - 2 * (ham.dHdq i j k).im * (el.p i * el.q j))) fj
        = fun k => fj k -
            (2 * 0.5 * (ham.dHdq i j k).re * (el.q i * el.q j + el.p i * el.p j)
              + 2 * (ham.dHdq i j k).im * (el.p i * el.q j)) := by
    intro i j fj
    funext k
    rw [foldl_update_sub2
      (fun k => 2 * 0.5 * (ham.dHdq i j k).re * (el.q i * el.q j + el.p i * el.p j))
      (fun k => 2 * (ham.dHdq i j k).im * (el.p i * el.q j))
      (List.finRange nnucl) (List.nodup_finRange nnucl) fj k]
    simp [List.mem_finRange]
    ring
  have hmid : ∀ (i : Fin nstates) (fi : Fin nnucl → ℚ),
      (List.finRange nstates).foldl (fun fj j =>
        let cij_re := el.q i * el.q j + el.p i * el.p j
        let cij_im := el.p i * el.q j
        (List.finRange nnucl).foldl (fun fk k =>
          let fk1 := Function.update fk k (fk k - 2 * 0.5 * (ham.dHdq i j k).re * cij_re)
          Function.update fk1 k (fk1 k - 2 * (ham.dHdq i j k).im * cij_im)) fj) fi
        = fun k => fi k - ((List.finRange nstates).map (fun j =>
            2 * 0.5 * (ham.dHdq i j k).re * (el.q i * el.q j + el.p i * el.p j)
              + 2 * (ham.dHdq i j k).im * (el.p i * el.q j))).sum := by
    intro i fi
    have hcong : (fun (fj : Fin nnucl → ℚ) (j : Fin nstates) =>
        (List.finRange nnucl).foldl (fun fk k =>
          let fk1 := Function.update fk k
            (fk k - 2 * 0.5 * (ham.dHdq i j k).re * (el.q i * el.q j + el.p i * el.p j))
          Function.update fk1 k
            (fk1 k - 2 * (ham.dHdq i j k).im * (el.p i * el.q j))) fj)
        = fun (fj : Fin nnucl → ℚ) (j : Fin nstates) => fun k => fj k -
            (2 * 0.5 * (ham.dHdq i j k).re * (el.q i * el.q j + el.p i * el.p j)
              + 2 * (ham.dHdq i j k).im * (el.p i * el.q j)) := by
      funext fj j
      exact hinner i j fj
    calc (List.finRange nstates).foldl (fun fj j =>
            (List.finRange nnucl).foldl (fun fk k =>
              let fk1 := Function.update fk k
                (fk k - 2 * 0.5 * (ham.dHdq i j k).re * (el.q i * el.q j + el.p i * el.p j))
              Function.update fk1 k
                (fk1 k - 2 * (ham.dHdq i j k).im * (el.p i * el.q j))) fj) fi
        = (List.finRange nstates).foldl (fun fj j => fun k => fj k -
            (2 * 0.5 * (ham.dHdq i j k).re * (el.q i * el.q j + el.p i * el.p j)
              + 2 * (ham.dHdq i j k).im * (el.p i * el.q j))) fi := by rw [hcong]
      _ = fun k => fi k - ((List.finRange nstates).map (fun j =>
            2 * 0.5 * (ham.dHdq i j k).re * (el.q i * el.q j + el.p i * el.p j)
              + 2 * (ham.dHdq i j k).im * (el.p i * el.q j))).sum := by
          rw [foldl_pointwise_sub]
  have houter : (fun (fi : Fin nnucl → ℚ) (i : Fin nstates) =>
      (List.finRange nstates).foldl (fun fj j =>
        let cij_re := el.q i * el.q j + el.p i * el.p j
        let cij_im := el.p i * el.q j
        (List.finRange nnucl).foldl (fun fk k =>
          let fk1 := Function.update fk k (fk k - 2 * 0.5 * (ham.dHdq i j k).re * cij_re)
          Function.update fk1 k (fk1 k - 2 * (ham.dHdq i j k).im * cij_im)) fj) fi)
      = fun (fi : Fin nnucl → ℚ) (i : Fin nstates) => fun k => fi k -
          ((List.finRange nstates).map (fun j =>
            2 * 0.5 * (ham.dHdq i j k).re * (el.q i * el.q j + el.p i * el.p j)
              + 2 * (ham.dHdq i j k).im * (el.p i * el.q j))).sum := by
    funext fi i
    exact hmid i fi
  rw [houter]
  rw [foldl_pointwise_sub]
  funext k
  simp only [Fin.sum_univ_def]

/-- Claim C6: in single-surface (FSSH) mode, `compute_potential_energy`
returns the real part of the adiabatic Hamiltonian diagonal element of the
active state, for every input (validity of `istate` is enforced by its
type `Fin nstates`). -/
theorem compute_potential_energy_FSSH {nstates nnucl : ℕ} (mol : Nuclear nnucl)
    (el : Electronic nstates) (ham : HamIface nstates nnucl) :
    compute_potential_energy mol el ham 1 = (ham.ham_adi el.istate el.istate).re := by
  unfold compute_potential_energy
  rw [if_neg (by decide), if_pos rfl]
  rfl

/-- Claim C7: in single-surface (FSSH) mode, `compute_forces` sets every
force component to minus the real part of the adiabatic gradient diagonal
element of the active state; the result depends only on the active state,
not on the amplitude arrays (nor on the uninitialized zero-loop index). -/
theorem compute_forces_FSSH {nstates nnucl : ℕ} (mol mol' : Nuclear nnucl)
    (el el' : Electronic nstates) (ham : HamIface nstates nnucl) (k0 k0' : ℕ)
    (hst : el'.istate = el.istate) :
    (∀ k, compute_forces mol el ham 1 k0 k = -(ham.d1ham_adi k el.istate el.istate).re)
    ∧ compute_forces mol' el' ham 1 k0' = compute_forces mol el ham 1 k0 := by
  have hval : ∀ (m : Nuclear nnucl) (e : Electronic nstates) (kk : ℕ) (k : Fin nnucl),
      compute_forces m e ham 1 kk k = -(ham.d1ham_adi k e.istate e.istate).re := by
    intro m e kk k
    unfold compute_forces
    rw [if_neg (by decide), if_pos rfl]
    rw [foldl_update_const]
    simp [List.mem_finRange, HamIface.dHdq]
  constructor
  · intro k
    exact hval mol el k0 k
  · funext k
    rw [hval mol' el' k0' k, hval mol el k0 k, hst]

/-- Concrete `Nuclear` input for the C1 counter-demonstration: two nuclear
dofs with stale forces `f = (1, 1)` left from a previous step. -/
def molC1 : Nuclear 2 :=
  { q := fun _ => 0, p := fun _ => 0, mass := fun _ => 1, f := fun _ => 1 }

/-- Concrete one-state `Electronic` input for the C1 counter-demonstration. -/
def elC1 : Electronic 1 :=
  { istate := 0, q := fun _ => 1, p := fun _ => 0 }

/-- Concrete Hamiltonian data for the C1 counter-demonstration: all matrix
elements and gradients vanish, so the claimed mean-field force is zero. -/
def hamC1 : HamIface 1 2 :=
  { Hvib := fun _ _ => ⟨0, 0⟩, ham_adi := fun _ _ => ⟨0, 0⟩
    d1ham_adi := fun _ _ _ => ⟨0, 0⟩ }

/-- Claim C1 fails on the code: the zeroing loop of `compute_forces` writes
`mol->f[k]` with `k` uninitialized (instead of `f[i]`), contradicting its own
comment `// Zero all forces in mol`, so in mean-field mode the `-=`
accumulation runs on stale forces.  At the concrete input `molC1`/`elC1`/
`hamC1` every gradient is zero, so the claimed output is `f[k] = 0` for both
dofs, yet whatever value `k0` the uninitialized index holds, some force
component keeps its stale value `1`. -/
theorem compute_forces_MF_not_zeroed (k0 : ℕ) :
    ∃ k : Fin 2, compute_forces molC1 elC1 hamC1 0 k0 k ≠
      -(∑ i : Fin 1, ∑ j : Fin 1,
        (2 * 0.5 * (hamC1.dHdq i j k).re * (elC1.q i * elC1.q j + elC1.p i * elC1.p j)
          + 2 * (hamC1.dHdq i j k).im * (elC1.p i * elC1.q j))) := by
  have hval : ∀ k : Fin 2, compute_forces molC1 elC1 hamC1 0 k0 k
      = zero_forces_loop molC1.f k0 k := by
    intro k
    unfold compute_forces
    rw [if_pos rfl]
    rw [forces_MF_loop_eq]
    simp [hamC1, HamIface.dHdq]
  have hclaim : ∀ k : Fin 2,
      -(∑ i : Fin 1, ∑ j : Fin 1,
        (2 * 0.5 * (hamC1.dHdq i j k).re * (elC1.q i * elC1.q j + elC1.p i * elC1.p j)
          + 2 * (hamC1.dHdq i j k).im * (elC1.p i * elC1.q j))) = 0 := by
    intro k
    simp [hamC1, HamIface.dHdq]
  match k0 with
  | 0 =>
      refine ⟨1, ?_⟩
      rw [hval, hclaim]
      unfold zero_forces_loop
      rw [dif_pos (by decide)]
      rw [Function.update_noteq (by decide)]
      simp [molC1]
  | 1 =>
      refine ⟨0, ?_⟩
      rw [hval, hclaim]
      unfold zero_forces_loop
      rw [dif_pos (by decide)]
      rw [Function.update_noteq (by decide)]
      simp [molC1]
  | (n + 2) =>
      refine ⟨0, ?_⟩
      rw [hval, hclaim]
      unfold zero_forces_loop
      rw [dif_neg (by omega)]
      simp [molC1]

/-- A square `nelec × nelec` real matrix (the `MATRIX` class, consumed as a
black-box storage service). -/
abbrev Mat (nelec : ℕ) := Fin nelec → Fin nelec → ℚ

/-- Matrix product, as used for the adiabatic gradient transformation. -/
def matMul {nelec : ℕ} (A B : Mat nelec) : Mat nelec :=
  fun i j => ∑ k : Fin nelec, A i k * B k j

/-- Matrix transpose (`MATRIX::T()`). -/
def matT {nelec : ℕ} (A : Mat nelec) : Mat nelec := fun i j => A j i

/-- The unit matrix (`Init_Unit_Matrix(1.0)`). -/
def matId (nelec : ℕ) : Mat nelec := fun i j => if i = j then 1 else 0

/-- Writing element `(0,0)` of a matrix (`M->M[0] = x` on a matrix stored
row-major). -/
def upd00 {nelec : ℕ} (A : Mat nelec) (x : ℚ) : Mat nelec :=
  fun i j => if (i : ℕ) = 0 ∧ (j : ℕ) = 0 then x else A i j

/-- The external MM potential model behind `mm_ham`/`_syst` (force-field
evaluation is an external collaborator, spec §6: deterministic in the
coordinates).  `energy q` is the summed interaction energy at coordinates
`q`; `atomForce q i c` is component `c ∈ {0,1,2}` (x, y, z) of the force the
evaluation leaves on atom `i`; `ninteractions` is the number of interaction
terms, i.e. of `calculate` calls per evaluation. -/
structure MMModel where
  natoms : ℕ
  ninteractions : ℕ
  energy : List ℚ → ℚ
  atomForce : List ℚ → ℕ → ℕ → ℚ

/-- The mutable state of a `Hamiltonian_Atomistic` object: representation
flag, the two cache dirty flags, the `ham_types[0]` registry flag, the
stored matrices and the stored coordinate/velocity vectors.
`mm_alloc_count` counts executions of `new listHamiltonian_MM()` so that
single allocation is expressible. -/
structure HamAtom (nelec nnucl : ℕ) where
  rep : ℕ
  status_dia : ℕ
  status_adi : ℕ
  ham_types0 : ℕ
  mm_alloc_count : ℕ
  ham_dia : Mat nelec
  ham_adi : Mat nelec
  d1ham_dia : Fin nnucl → Mat nelec
  d1ham_adi : Fin nnucl → Mat nelec
  d2ham_dia : Fin (nnucl * nnucl) → Mat nelec
  q : List ℚ
  v : List ℚ

/-- `Hamiltonian_Atomistic::set_q` (lines 170-184): a size mismatch with
`nnucl` prints an error and calls `exit(0)` (modelled as `none`); otherwise
the coordinates are stored and both cache flags are invalidated (the final
`_syst->set_atomic_q(q)` mirrors `q` into the external system, which the
`MMModel` functions read through `q`). -/
def HamAtom.set_q {nelec nnucl : ℕ} (s : HamAtom nelec nnucl) (q_ : List ℚ) :
    Option (HamAtom nelec nnucl) :=
  if q_.length ≠ nnucl then none
  else some { s with q := q_, status_dia := 0, status_adi := 0 }

/-- `Hamiltonian_Atomistic::set_v` (lines 186-200): a size mismatch with
`nnucl` exits (modelled as `none`); otherwise the velocities are stored and
only the adiabatic cache flag is invalidated. -/
def HamAtom.set_v {nelec nnucl : ℕ} (s : HamAtom nelec nnucl) (v_ : List ℚ) :
    Option (HamAtom nelec nnucl) :=
  if v_.length ≠ nnucl then none
  else some { s with v := v_, status_adi := 0 }

/-- `Hamiltonian_Atomistic::set_Hamiltonian_type` (lines 68-84): only the
selector `"MM"` is recognized; it sets the diabatic representation and, when
`ham_types[0]` is still `0`, allocates the MM Hamiltonian and raises the
flag.  Any other selector prints an error and calls `exit(0)` (modelled as
`none`). -/
def HamAtom.set_Hamiltonian_type {nelec nnucl : ℕ} (s : HamAtom nelec nnucl)
    (ham_type : String) : Option (HamAtom nelec nnucl) :=
  if ham_type = "MM" then
    if s.ham_types0 = 0 then
      some { s with rep := 0, mm_alloc_count := s.mm_alloc_count + 1, ham_types0 := 1 }
    else
      some { s with rep := 0 }
  else none

/-- `Hamiltonian_Atomistic::compute_diabatic` (lines 270-329), paired with
the number of `interactions[i].calculate(tmp)` calls it performs.  When the
diabatic cache is stale and the MM Hamiltonian is registered it evaluates
the potential model at the stored coordinates, writes the energy into
element `(0,0)` of both `ham_dia` and `ham_adi`, writes the negated
atomistic force components into element `(0,0)` of `d1ham_dia[n]` and
`d1ham_adi[n]` (the atom loop covers dofs `n = 3*i + c` for atom `i` and
component `c`, i.e. atom `n / 3`, component `n % 3`, for `n < 3*natoms`),
zeroes element `(0,0)` of every `d2ham_dia[m]`, and finally marks the
diabatic cache fresh; with a fresh cache it does nothing. -/
def HamAtom.compute_diabatic {nelec nnucl : ℕ} (m : MMModel)
    (s : HamAtom nelec nnucl) : HamAtom nelec nnucl × ℕ :=
  if s.status_dia = 0 then
    if s.ham_types0 = 1 then
      ({ s with
          ham_dia := upd00 s.ham_dia (m.energy s.q)
          ham_adi := upd00 s.ham_adi (m.energy s.q)
          d1ham_dia := fun n => if (n : ℕ) < 3 * m.natoms then
              upd00 (s.d1ham_dia n) (-(m.atomForce s.q ((n : ℕ) / 3) ((n : ℕ) % 3)))
            else s.d1ham_dia n
          d1ham_adi := fun n => if (n : ℕ) < 3 * m.natoms then
              upd00 (s.d1ham_adi n) (-(m.atomForce s.q ((n : ℕ) / 3) ((n : ℕ) % 3)))
            else s.d1ham_adi n
          d2ham_dia := fun i => upd00 (s.d2ham_dia i) 0
          status_dia := 1 }, m.ninteractions)
    else ({ s with status_dia := 1 }, 0)
  else (s, 0)

/-- `Hamiltonian_Atomistic::compute_adiabatic` (lines 333-369), paired with
the number of potential-model interaction calls of its `compute_diabatic`
invocation.  It first invokes `compute_diabatic`; then, if the adiabatic
cache is stale, it calls the external generalized eigensolver
(`solve_eigen(nelec, ham_dia, S, ham_adi, C)`, spec §6) with `S` freshly
initialized as the unit matrix, stores the returned eigenvalue matrix in
`ham_adi`, transforms every gradient as `d1ham_adi[n] = Cᵀ·d1ham_dia[n]·C`,
and marks the adiabatic cache fresh. -/
def HamAtom.compute_adiabatic {nelec nnucl : ℕ}
    (solver : Mat nelec → Mat nelec → Mat nelec × Mat nelec) (m : MMModel)
    (s : HamAtom nelec nnucl) : HamAtom nelec nnucl × ℕ :=
  let p := HamAtom.compute_diabatic m s
  if p.1.status_adi = 0 then
    let r := solver p.1.ham_dia (matId nelec)
    ({ p.1 with
        ham_adi := r.1
        d1ham_adi := fun n => matMul (matT r.2) (matMul (p.1.d1ham_dia n) r.2)
        status_adi := 1 }, p.2)
  else p

/-- After any `compute_diabatic` call the diabatic cache flag is nonzero. -/
theorem compute_diabatic_fresh {nelec nnucl : ℕ} (m : MMModel) (s : HamAtom nelec nnucl) :
    (HamAtom.compute_diabatic m s).1.status_dia ≠ 0 := by
  unfold HamAtom.compute_diabatic
  by_cases h : s.status_dia = 0
  · rw [if_pos h]
    by_cases h2 : s.ham_types0 = 1
    · rw [if_pos h2]; simp
    · rw [if_neg h2]; simp
  · rw [if_neg h]; simpa using h

/-- `compute_diabatic` on a fresh diabatic cache is the identity and performs
no interaction evaluation. -/
theorem compute_diabatic_skip {nelec nnucl : ℕ} (m : MMModel) (s : HamAtom nelec nnucl)
    (h : s.status_dia ≠ 0) : HamAtom.compute_diabatic m s = (s, 0) := by
  unfold HamAtom.compute_diabatic
  rw [if_neg h]

/-- `compute_diabatic` never touches the adiabatic cache flag. -/
theorem compute_diabatic_status_adi {nelec nnucl : ℕ} (m : MMModel)
    (s : HamAtom nelec nnucl) :
    (HamAtom.compute_diabatic m s).1.status_adi = s.status_adi := by
  unfold HamAtom.compute_diabatic
  by_cases h : s.status_dia = 0
  · rw [if_pos h]
    by_cases h2 : s.ham_types0 = 1
    · rw [if_pos h2]
    · rw [if_neg h2]
  · rw [if_neg h]

/-- Claim C4: diabatic computation is idempotent under the unchanged-
coordinates cache: with a fresh `status_dia` the call performs no
potential-model evaluation and changes nothing, and in particular a second
call right after a first one returns the first call's state bit-identically
with zero evaluations. -/
theorem compute_diabatic_idempotent {nelec nnucl : ℕ} (m : MMModel)
    (s : HamAtom nelec nnucl) :
    (s.status_dia = 1 → HamAtom.compute_diabatic m s = (s, 0)) ∧
    HamAtom.compute_diabatic m (HamAtom.compute_diabatic m s).1
      = ((HamAtom.compute_diabatic m s).1, 0) := by
  constructor
  · intro h
    exact compute_diabatic_skip m s (by rw [h]; exact one_ne_zero)
  · exact compute_diabatic_skip m _ (compute_diabatic_fresh m s)

/-- A concrete `Hamiltonian_Atomistic` state (one electronic state, one
nuclear dof, MM Hamiltonian registered, both caches stale). -/
def sW : HamAtom 1 1 :=
  { rep := 0, status_dia := 0, status_adi := 0, ham_types0 := 1
    mm_alloc_count := 1
    ham_dia := fun _ _ => 0, ham_adi := fun _ _ => 0
    d1ham_dia := fun _ _ _ => 0, d1ham_adi := fun _ _ _ => 0
    d2ham_dia := fun _ _ _ => 0
    q := [2], v := [3] }

/-- A concrete MM potential model with one atom and four interaction terms. -/
def mW : MMModel :=
  { natoms := 1, ninteractions := 4
    energy := fun l => l.sum
    atomForce := fun _ i c => (i : ℚ) + (c : ℚ) + 1 }

/-- Witness for claim C4 at the concrete model `mW` and states `sW`
(stale cache, then its own output) and `sW` with a fresh flag. -/
theorem compute_diabatic_idempotent_witness :
    HamAtom.compute_diabatic mW (HamAtom.compute_diabatic mW sW).1
      = ((HamAtom.compute_diabatic mW sW).1, 0)
    ∧ HamAtom.compute_diabatic mW { sW with status_dia := 1 }
      = ({ sW with status_dia := 1 }, 0) :=
  ⟨(compute_diabatic_idempotent mW sW).2,
   (compute_diabatic_idempotent mW { sW with status_dia := 1 }).1 rfl⟩

/-- Claim C5: `set_q` fails fast (returns `none`, modelling `exit(0)`)
exactly when the input size differs from `nnucl`; on matching sizes it
stores the coordinates and invalidates both caches. -/
theorem set_q_spec {nelec nnucl : ℕ} (s : HamAtom nelec nnucl) (q_ : List ℚ) :
    (HamAtom.set_q s q_ = none ↔ q_.length ≠ nnucl) ∧
    (∀ s', HamAtom.set_q s q_ = some s' →
      s'.q = q_ ∧ s'.status_dia = 0 ∧ s'.status_adi = 0) := by
  constructor
  · constructor
    · intro hnone
      by_contra hlen
      unfold HamAtom.set_q at hnone
      rw [if_neg (not_ne_iff.mpr hlen)] at hnone
      cases hnone
    · intro hlen
      unfold HamAtom.set_q
      rw [if_pos hlen]
  · intro s' hs
    by_cases h : q_.length ≠ nnucl
    · unfold HamAtom.set_q at hs
      rw [if_pos h] at hs
      cases hs
    · unfold HamAtom.set_q at hs
      rw [if_neg h] at hs
      have h2 := Option.some.inj hs
      subst h2
      exact ⟨rfl, rfl, rfl⟩

/-- Witness for claim C5: a two-element vector is rejected by a
one-dof Hamiltonian, and a one-element vector is stored with both caches
invalidated. -/
theorem set_q_spec_witness :
    HamAtom.set_q { sW with status_dia := 1, status_adi := 1 } [9, 9] = none ∧
    ∃ s', HamAtom.set_q { sW with status_dia := 1, status_adi := 1 } [5] = some s' ∧
      s'.q = [5] ∧ s'.status_dia = 0 ∧ s'.status_adi = 0 := by
  constructor
  · exact (set_q_spec { sW with status_dia := 1, status_adi := 1 } [9, 9]).1.mpr (by decide)
  · exact ⟨_, rfl, (set_q_spec { sW with status_dia := 1, status_adi := 1 } [5]).2 _ rfl⟩

/-- Claim C9: `set_v` fails fast exactly on a size mismatch; on matching
sizes it stores the velocities and invalidates only the adiabatic cache,
leaving the diabatic flag and all diabatic results unchanged. -/
theorem set_v_spec {nelec nnucl : ℕ} (s : HamAtom nelec nnucl) (v_ : List ℚ) :
    (HamAtom.set_v s v_ = none ↔ v_.length ≠ nnucl) ∧
    (∀ s', HamAtom.set_v s v_ = some s' →
      s'.v = v_ ∧ s'.status_adi = 0 ∧ s'.status_dia = s.status_dia ∧
      s'.ham_dia = s.ham_dia ∧ s'.d1ham_dia = s.d1ham_dia ∧
      s'.d2ham_dia = s.d2ham_dia ∧ s'.q = s.q) := by
  constructor
  · constructor
    · intro hnone
      by_contra hlen
      unfold HamAtom.set_v at hnone
      rw [if_neg (not_ne_iff.mpr hlen)] at hnone
      cases hnone
    · intro hlen
      unfold HamAtom.set_v
      rw [if_pos hlen]
  · intro s' hs
    by_cases h : v_.length ≠ nnucl
    · unfold HamAtom.set_v at hs
      rw [if_pos h] at hs
      cases hs
    · unfold HamAtom.set_v at hs
      rw [if_neg h] at hs
      have h2 := Option.some.inj hs
      subst h2
      exact ⟨rfl, rfl, rfl, rfl, rfl, rfl, rfl⟩

/-- Witness for claim C9: a two-element velocity vector is rejected by a
one-dof Hamiltonian, and a one-element one is stored leaving the diabatic
data of `sW` with a fresh diabatic flag untouched. -/
theorem set_v_spec_witness :
    HamAtom.set_v { sW with status_dia := 1, status_adi := 1 } [9, 9] = none ∧
    ∃ s', HamAtom.set_v { sW with status_dia := 1, status_adi := 1 } [7] = some s' ∧
      s'.v = [7] ∧ s'.status_adi = 0 ∧ s'.status_dia = 1 := by
  constructor
  · exact (set_v_spec { sW with status_dia := 1, status_adi := 1 } [9, 9]).1.mpr (by decide)
  · refine ⟨_, rfl, ?_⟩
    have h := (set_v_spec { sW with status_dia := 1, status_adi := 1 } [7]).2 _ rfl
    exact ⟨h.1, h.2.1, h.2.2.1⟩

/-- Claim C8: `set_Hamiltonian_type` treats every selector other than
`"MM"` as fatal (returns `none`, modelling `exit(0)`); for `"MM"` it
succeeds, sets the diabatic representation, raises the `ham_types[0]` guard,
allocates the MM Hamiltonian exactly when the guard was still down, and a
repeated `"MM"` call never allocates again. -/
theorem set_Hamiltonian_type_spec {nelec nnucl : ℕ} (s : HamAtom nelec nnucl)
    (t : String) :
    (t ≠ "MM" → HamAtom.set_Hamiltonian_type s t = none) ∧
    (∀ s', HamAtom.set_Hamiltonian_type s "MM" = some s' →
      s'.rep = 0 ∧ s'.ham_types0 ≠ 0 ∧
      s'.mm_alloc_count
        = (if s.ham_types0 = 0 then s.mm_alloc_count + 1 else s.mm_alloc_count) ∧
      (∀ s'', HamAtom.set_Hamiltonian_type s' "MM" = some s'' →
        s''.mm_alloc_count = s'.mm_alloc_count)) := by
  constructor
  · intro ht
    unfold HamAtom.set_Hamiltonian_type
    rw [if_neg ht]
  · intro s' hs
    have hrepeat : ∀ (r : HamAtom nelec nnucl), r.ham_types0 ≠ 0 →
        ∀ s'', HamAtom.set_Hamiltonian_type r "MM" = some s'' →
          s''.mm_alloc_count = r.mm_alloc_count := by
      intro r hr s'' hs''
      unfold HamAtom.set_Hamiltonian_type at hs''
      rw [if_pos rfl, if_neg hr] at hs''
      have h2 := Option.some.inj hs''
      subst h2
      rfl
    unfold HamAtom.set_Hamiltonian_type at hs
    rw [if_pos rfl] at hs
    by_cases h0 : s.ham_types0 = 0
    · rw [if_pos h0] at hs
      have h2 := Option.some.inj hs
      subst h2
      exact ⟨rfl, one_ne_zero, by rw [if_pos h0], hrepeat _ one_ne_zero⟩
    · rw [if_neg h0] at hs
      have h2 := Option.some.inj hs
      subst h2
      exact ⟨rfl, h0, by rw [if_neg h0], hrepeat _ h0⟩

/-- Witness for claim C8: the selector `"XX"` is fatal, and from a state
with the guard down an `"MM"` call allocates once with the guard raised. -/
theorem set_Hamiltonian_type_witness :
    HamAtom.set_Hamiltonian_type { sW with ham_types0 := 0, mm_alloc_count := 0 } "XX"
      = none ∧
    ∃ s', HamAtom.set_Hamiltonian_type
        { sW with ham_types0 := 0, mm_alloc_count := 0 } "MM" = some s' ∧
      s'.rep = 0 ∧ s'.ham_types0 ≠ 0 ∧ s'.mm_alloc_count = 1 ∧
      (∀ s'', HamAtom.set_Hamiltonian_type s' "MM" = some s'' →
        s''.mm_alloc_count = s'.mm_alloc_count) := by
  constructor
  · exact (set_Hamiltonian_type_spec
      { sW with ham_types0 := 0, mm_alloc_count := 0 } "XX").1 (by decide)
  · refine ⟨_, rfl, ?_⟩
    have h := (set_Hamiltonian_type_spec
      { sW with ham_types0 := 0, mm_alloc_count := 0 } "MM").2 _ rfl
    exact ⟨h.1, h.2.1, h.2.2.1, h.2.2.2⟩

/-- Claim C10: for an MM-type Hamiltonian with `nnucl = 3 * natoms`, a
`compute_diabatic` run from a stale diabatic cache mirrors the diabatic
results into the adiabatic storage: element `(0,0)` of `ham_adi` equals that
of `ham_dia`, element `(0,0)` of every `d1ham_adi[n]` equals that of
`d1ham_dia[n]` and both equal minus the atomistic force component of atom
`n / 3` along axis `n % 3`, and element `(0,0)` of every `d2ham_dia[i]` is
zero. -/
theorem compute_diabatic_MM_mirror {nelec nnucl : ℕ} (m : MMModel)
    (s : HamAtom nelec nnucl) (hne : 0 < nelec) (hdim : nnucl = 3 * m.natoms)
    (hstale : s.status_dia = 0) (hmm : s.ham_types0 = 1) :
    (HamAtom.compute_diabatic m s).1.ham_adi ⟨0, hne⟩ ⟨0, hne⟩
      = (HamAtom.compute_diabatic m s).1.ham_dia ⟨0, hne⟩ ⟨0, hne⟩ ∧
    (∀ n : Fin nnucl,
      (HamAtom.compute_diabatic m s).1.d1ham_adi n ⟨0, hne⟩ ⟨0, hne⟩
        = (HamAtom.compute_diabatic m s).1.d1ham_dia n ⟨0, hne⟩ ⟨0, hne⟩ ∧
      (HamAtom.compute_diabatic m s).1.d1ham_dia n ⟨0, hne⟩ ⟨0, hne⟩
        = -(m.atomForce s.q ((n : ℕ) / 3) ((n : ℕ) % 3))) ∧
    (∀ i : Fin (nnucl * nnucl),
      (HamAtom.compute_diabatic m s).1.d2ham_dia i ⟨0, hne⟩ ⟨0, hne⟩ = 0) := by
  unfold HamAtom.compute_diabatic
  rw [if_pos hstale, if_pos hmm]
  refine ⟨by simp [upd00], fun n => ?_, fun i => by simp [upd00]⟩
  have hn : (n : ℕ) < 3 * m.natoms := hdim ▸ n.isLt
  constructor
  · simp [hn, upd00]
  · simp [hn, upd00]

/-- Concrete one-atom, three-dof state for the claim C10 witness. -/
def sD : HamAtom 1 3 :=
  { rep := 0, status_dia := 0, status_adi := 0, ham_types0 := 1
    mm_alloc_count := 1
    ham_dia := fun _ _ => 0, ham_adi := fun _ _ => 0
    d1ham_dia := fun _ _ _ => 5, d1ham_adi := fun _ _ _ => 6
    d2ham_dia := fun _ _ _ => 7
    q := [1, 2, 3], v := [0, 0, 0] }

/-- Witness for claim C10 at the concrete model `mW` (one atom) and state
`sD`. -/
theorem compute_diabatic_MM_mirror_witness :
    (HamAtom.compute_diabatic mW sD).1.ham_adi ⟨0, Nat.one_pos⟩ ⟨0, Nat.one_pos⟩
      = (HamAtom.compute_diabatic mW sD).1.ham_dia ⟨0, Nat.one_pos⟩ ⟨0, Nat.one_pos⟩ ∧
    (HamAtom.compute_diabatic mW sD).1.d1ham_dia 2 ⟨0, Nat.one_pos⟩ ⟨0, Nat.one_pos⟩
      = -(mW.atomForce sD.q 0 2) := by
  have h := compute_diabatic_MM_mirror mW sD Nat.one_pos rfl rfl rfl
  exact ⟨h.1, (h.2.1 2).2⟩

/-- A second concrete `Nuclear` input (different stale forces) for the C7
witness. -/
def molC2 : Nuclear 2 :=
  { q := fun _ => 4, p := fun _ => 4, mass := fun _ => 1, f := fun _ => 8 }

/-- A second concrete `Electronic` input with the same active state as
`elC1` but different amplitudes, for the C7 witness. -/
def elC2 : Electronic 1 :=
  { istate := 0, q := fun _ => 9, p := fun _ => 4 }

/-- Witness for claim C7 at the concrete inputs `molC1`/`elC1` and
`molC2`/`elC2` (same active state, different amplitudes and different
uninitialized zero-loop indices). -/
theorem compute_forces_FSSH_witness :
    (∀ k, compute_forces molC1 elC1 hamC1 1 0 k
      = -(hamC1.d1ham_adi k elC1.istate elC1.istate).re)
    ∧ compute_forces molC2 elC2 hamC1 1 5 = compute_forces molC1 elC1 hamC1 1 0 :=
  compute_forces_FSSH molC1 molC2 elC1 elC2 hamC1 0 5 rfl

/-- Claim C3: `compute_adiabatic` first brings the diabatic result up to
date by invoking `compute_diabatic`; then, the adiabatic cache being stale,
it solves the generalized eigenproblem `H_dia·C = S·C·H_adi` with `S` the
identity (assuming the external solver contract at the call site), stores
the eigenvalues in `ham_adi`, sets `d1ham_adi[n] = Cᵀ·d1ham_dia[n]·C` for
every nuclear dof, and marks the adiabatic cache fresh. -/
theorem compute_adiabatic_spec {nelec nnucl : ℕ}
    (solver : Mat nelec → Mat nelec → Mat nelec × Mat nelec) (m : MMModel)
    (s : HamAtom nelec nnucl) (hadi : s.status_adi = 0)
    (hsolve : matMul (HamAtom.compute_diabatic m s).1.ham_dia
        (solver (HamAtom.compute_diabatic m s).1.ham_dia (matId nelec)).2
      = matMul (matId nelec)
          (matMul (solver (HamAtom.compute_diabatic m s).1.ham_dia (matId nelec)).2
            (solver (HamAtom.compute_diabatic m s).1.ham_dia (matId nelec)).1)) :
    (HamAtom.compute_adiabatic solver m s).1.ham_dia
      = (HamAtom.compute_diabatic m s).1.ham_dia ∧
    (HamAtom.compute_adiabatic solver m s).1.d1ham_dia
      = (HamAtom.compute_diabatic m s).1.d1ham_dia ∧
    HamAtom.compute_diabatic m (HamAtom.compute_adiabatic solver m s).1
      = ((HamAtom.compute_adiabatic solver m s).1, 0) ∧
    (HamAtom.compute_adiabatic solver m s).1.ham_adi
      = (solver (HamAtom.compute_diabatic m s).1.ham_dia (matId nelec)).1 ∧
    matMul (HamAtom.compute_adiabatic solver m s).1.ham_dia
        (solver (HamAtom.compute_diabatic m s).1.ham_dia (matId nelec)).2
      = matMul (matId nelec)
          (matMul (solver (HamAtom.compute_diabatic m s).1.ham_dia (matId nelec)).2
            (HamAtom.compute_adiabatic solver m s).1.ham_adi) ∧
    (∀ n, (HamAtom.compute_adiabatic solver m s).1.d1ham_adi n
      = matMul (matT (solver (HamAtom.compute_diabatic m s).1.ham_dia (matId nelec)).2)
          (matMul ((HamAtom.compute_diabatic m s).1.d1ham_dia n)
            (solver (HamAtom.compute_diabatic m s).1.ham_dia (matId nelec)).2)) ∧
    (HamAtom.compute_adiabatic solver m s).1.status_adi = 1 := by
  have hst : (HamAtom.compute_diabatic m s).1.status_adi = 0 := by
    rw [compute_diabatic_status_adi]; exact hadi
  have hA : HamAtom.compute_adiabatic solver m s
      = ({ (HamAtom.compute_diabatic m s).1 with
            ham_adi := (solver (HamAtom.compute_diabatic m s).1.ham_dia (matId nelec)).1
            d1ham_adi := fun n =>
              matMul (matT (solver (HamAtom.compute_diabatic m s).1.ham_dia (matId nelec)).2)
                (matMul ((HamAtom.compute_diabatic m s).1.d1ham_dia n)
                  (solver (HamAtom.compute_diabatic m s).1.ham_dia (matId nelec)).2)
            status_adi := 1 }, (HamAtom.compute_diabatic m s).2) := by
    unfold HamAtom.compute_adiabatic
    rw [if_pos hst]
  refine ⟨by rw [hA], by rw [hA], ?_, by rw [hA], by rw [hA]; exact hsolve,
    fun n => by rw [hA], by rw [hA]⟩
  refine compute_diabatic_skip m _ ?_
  rw [hA]
  exact compute_diabatic_fresh m s

/-- A concrete generalized eigensolver for 1×1 matrices (`C = (1)`,
eigenvalue the matrix entry itself), used by the claim C3 witness. -/
def solverW : Mat 1 → Mat 1 → Mat 1 × Mat 1 := fun H _S => (H, matId 1)

/-- Right multiplication by the unit matrix is the identity. -/
theorem matMul_matId {n : ℕ} (A : Mat n) : matMul A (matId n) = A := by
  funext i j
  simp [matMul, matId, mul_ite, mul_one, mul_zero]

/-- Left multiplication by the unit matrix is the identity. -/
theorem matId_matMul {n : ℕ} (A : Mat n) : matMul (matId n) A = A := by
  funext i j
  simp [matMul, matId, ite_mul, one_mul, zero_mul]

/-- Witness for claim C3 at the concrete solver `solverW`, model `mW` and
state `sW` (stale adiabatic cache). -/
theorem compute_adiabatic_spec_witness :
    (HamAtom.compute_adiabatic solverW mW sW).1.status_adi = 1 ∧
    (HamAtom.compute_adiabatic solverW mW sW).1.ham_adi
      = (solverW (HamAtom.compute_diabatic mW sW).1.ham_dia (matId 1)).1 := by
  have h := compute_adiabatic_spec solverW mW sW rfl (by
    simp only [solverW]
    rw [matMul_matId, matId_matMul, matId_matMul])
  exact ⟨h.2.2.2.2.2.2, h.2.2.2.1⟩
